import Mathlib

set_option maxRecDepth 10000

namespace SquidCache

/-! ## SHA-256 (model of Node `crypto.createHash('sha256')` used by src/hashing.ts)

All arithmetic is on `Nat` reduced modulo `2^32` where the source words are
32-bit machine integers. -/

def w32 : Nat := 4294967296

def rotr (n x : Nat) : Nat := ((x >>> n) ||| (x <<< (32 - n))) % w32

def bSig0 (x : Nat) : Nat := rotr 2 x ^^^ rotr 13 x ^^^ rotr 22 x

def bSig1 (x : Nat) : Nat := rotr 6 x ^^^ rotr 11 x ^^^ rotr 25 x

def sSig0 (x : Nat) : Nat := rotr 7 x ^^^ rotr 18 x ^^^ (x >>> 3)

def sSig1 (x : Nat) : Nat := rotr 17 x ^^^ rotr 19 x ^^^ (x >>> 10)

def chF (x y z : Nat) : Nat := (x &&& y) ^^^ ((x ^^^ (w32 - 1)) &&& z)

def majF (x y z : Nat) : Nat := (x &&& y) ^^^ (x &&& z) ^^^ (y &&& z)

/-- The 64 SHA-256 round constants, in decimal. -/
def k256 : List Nat :=
  [1116352408, 1899447441, 3049323471, 3921009573, 961987163, 1508970993,
   2453635748, 2870763221, 3624381080, 310598401, 607225278, 1426881987,
   1925078388, 2162078206, 2614888103, 3248222580, 3835390401, 4022224774,
   264347078, 604807628, 770255983, 1249150122, 1555081692, 1996064986,
   2554220882, 2821834349, 2952996808, 3210313671, 3336571891, 3584528711,
   113926993, 338241895, 666307205, 773529912, 1294757372, 1396182291,
   1695183700, 1986661051, 2177026350, 2456956037, 2730485921, 2820302411,
   3259730800, 3345764771, 3516065817, 3600352804, 4094571909, 275423344,
   430227734, 506948616, 659060556, 883997877, 958139571, 1322822218,
   1537002063, 1747873779, 1955562222, 2024104815, 2227730452, 2361852424,
   2428436474, 2756734187, 3204031479, 3329325298]

/-- The eight SHA-256 initial hash values, in decimal. -/
def h256 : List Nat :=
  [1779033703, 3144134277, 1013904242, 2773480762,
   1359893119, 2600822924, 528734635, 1541459225]

/-- Big-endian encoding of `x` on `n` bytes. -/
def toBytesBE (n x : Nat) : List Nat :=
  (List.range n).map (fun i => (x >>> (8 * (n - 1 - i))) % 256)

/-- SHA-256 padding: append 0x80, zero bytes, and the 64-bit big-endian bit length. -/
def padMsg (msg : List Nat) : List Nat :=
  let L := msg.length
  let z := (64 - ((L + 9) % 64)) % 64
  msg ++ [0x80] ++ List.replicate z 0 ++ toBytesBE 8 (8 * L)

def bytesToWords : List Nat → List Nat
  | a :: b :: c :: d :: rest => (((a * 256 + b) * 256 + c) * 256 + d) :: bytesToWords rest
  | _ => []

/-- One step of the message-schedule extension; `acc` holds the words newest first. -/
def scheduleStep (acc : List Nat) : List Nat :=
  ((sSig1 (acc.getD 1 0) + acc.getD 6 0 + sSig0 (acc.getD 14 0) + acc.getD 15 0) % w32) :: acc

/-- Extend a 16-word block to the 64-word schedule `W`. -/
def fullSchedule (block : List Nat) : List Nat :=
  ((List.range 48).foldl (fun acc _ => scheduleStep acc) block.reverse).reverse

structure Sha256State where
  a : Nat
  b : Nat
  c : Nat
  d : Nat
  e : Nat
  f : Nat
  g : Nat
  h : Nat

def roundStep (st : Sha256State) (wk : Nat × Nat) : Sha256State :=
  let t1 := (st.h + bSig1 st.e + chF st.e st.f st.g + wk.2 + wk.1) % w32
  let t2 := (bSig0 st.a + majF st.a st.b st.c) % w32
  ⟨(t1 + t2) % w32, st.a, st.b, st.c, (st.d + t1) % w32, st.e, st.f, st.g⟩

def compress (h : List Nat) (block : List Nat) : List Nat :=
  let ws := fullSchedule block
  let init : Sha256State :=
    ⟨h.getD 0 0, h.getD 1 0, h.getD 2 0, h.getD 3 0, h.getD 4 0, h.getD 5 0, h.getD 6 0, h.getD 7 0⟩
  let s := (ws.zip k256).foldl roundStep init
  [(h.getD 0 0 + s.a) % w32, (h.getD 1 0 + s.b) % w32, (h.getD 2 0 + s.c) % w32,
   (h.getD 3 0 + s.d) % w32, (h.getD 4 0 + s.e) % w32, (h.getD 5 0 + s.f) % w32,
   (h.getD 6 0 + s.g) % w32, (h.getD 7 0 + s.h) % w32]

/-- Digest of a byte sequence: fold `compress` over the 64-byte blocks of the padded message. -/
def sha256Words (msg : List Nat) : List Nat :=
  let padded := padMsg msg
  (List.range (padded.length / 64)).foldl
    (fun h i => compress h (bytesToWords ((padded.drop (64 * i)).take 64))) h256

def hexDigit (n : Nat) : Char :=
  if n < 10 then Char.ofNat (48 + n) else Char.ofNat (87 + n)

def wordHex (x : Nat) : List Char :=
  (List.range 8).map (fun i => hexDigit ((x >>> (4 * (7 - i))) % 16))

def sha256Hex (msg : List Nat) : String :=
  String.mk ((sha256Words msg).map wordHex).flatten

/-- UTF-8 bytes of a string; the strings hashed by this repository are ASCII,
for which the code points are the bytes. -/
def strBytes (s : String) : List Nat := s.data.map Char.toNat

/-- Model of `stableHash16` (src/hashing.ts): sha256 hex digest of the
serialized value, truncated to its first 16 characters. -/
def stableHash16 (serialized : String) : String := (sha256Hex (strBytes serialized)).take 16

/-! ## JSON values and serialization (model of the JS values fed to
`JSON.stringify` in src/hashing.ts) -/

/-- A JSON value; object fields keep their construction (insertion) order,
exactly as JS objects do when serialized by `JSON.stringify`. -/
inductive Json where
  | null : Json
  | bool (b : Bool) : Json
  | num (n : Int) : Json
  | str (s : String) : Json
  | arr (xs : List Json) : Json
  | obj (kvs : List (String × Json)) : Json

def escapeChar (c : Char) : List Char :=
  if c = '"' then ['\\', '"']
  else if c = '\\' then ['\\', '\\']
  else if c = '\n' then ['\\', 'n']
  else if c = '\t' then ['\\', 't']
  else if c = '\r' then ['\\', 'r']
  else [c]

def jsonQuote (s : String) : String :=
  "\"" ++ String.mk (s.data.map escapeChar).flatten ++ "\""

/-- Model of JS `JSON.stringify`: fields appear in construction order, no added
whitespace. The fuel bounds the nesting depth; 32 covers every value in this
development. -/
def stringifyF : Nat → Json → String
  | 0, _ => ""
  | fuel + 1, j =>
    match j with
    | .null => "null"
    | .bool true => "true"
    | .bool false => "false"
    | .num n => toString n
    | .str s => jsonQuote s
    | .arr xs => "[" ++ String.intercalate "," (xs.map (stringifyF fuel)) ++ "]"
    | .obj kvs => "\x7b" ++ String.intercalate ","
        (kvs.map (fun kv => jsonQuote kv.1 ++ ":" ++ stringifyF fuel kv.2)) ++ "\x7d"

def jsonStringify (j : Json) : String := stringifyF 32 j

/-- Semantic equality of JSON values as structured values: object fields are
compared as a key-to-value map, ignoring construction order; arrays are
compared pointwise. This is the spec notion of "semantically equal identity". -/
def jsonEquivF : Nat → Json → Json → Bool
  | 0, _, _ => false
  | fuel + 1, a, b =>
    match a, b with
    | .null, .null => true
    | .bool x, .bool y => x == y
    | .num x, .num y => x == y
    | .str x, .str y => x == y
    | .arr xs, .arr ys =>
        xs.length == ys.length && (xs.zip ys).all (fun p => jsonEquivF fuel p.1 p.2)
    | .obj xs, .obj ys =>
        xs.length == ys.length &&
        (xs.all fun kv =>
          match ys.find? (fun kv2 => kv2.1 == kv.1) with
          | some kv2 => jsonEquivF fuel kv.2 kv2.2
          | none => false) &&
        (ys.all fun kv => (xs.find? (fun kv2 => kv2.1 == kv.1)).isSome)
    | _, _ => false

def jsonEquivalent (a b : Json) : Bool := jsonEquivF 32 a b

/-- The object hashed by `makeRecorder` (src/index.ts line 91):
`stableHash16({ project, chain, identity: init.configIdentity })`. -/
def identityWrap (project chain : String) (identity : Json) : Json :=
  .obj [("project", .str project), ("chain", .str chain), ("identity", identity)]

/-- The recorder fingerprint: `configHash = stableHash16({project, chain, identity})`. -/
def configHashOf (project chain : String) (identity : Json) : String :=
  stableHash16 (jsonStringify (identityWrap project chain identity))

/-- Identity value `{"a": 1, "b": 2}`. -/
def idAB : Json := .obj [("a", .num 1), ("b", .num 2)]

/-- The same map constructed in the other key order, `{"b": 2, "a": 1}`. -/
def idBA : Json := .obj [("b", .num 2), ("a", .num 1)]

/-! ## Data model (src/index.ts types, heights as mathematical integers) -/

structure SlimLog where
  address : String
  data : String
  topics : List String
  transactionHash : String
  blockNumber : Int
  logIndex : Int
  transactionIndex : Int
  blockHash : Option String
deriving DecidableEq

structure SlimTx where
  hash : Option String
  fromAddr : Option String
  toAddr : Option String
deriving DecidableEq

structure SlimHeader where
  height : Int
  hash : Option String
  timestamp : Int
deriving DecidableEq

structure SlimBlock where
  header : SlimHeader
  logs : List SlimLog
  transactions : List SlimTx
deriving DecidableEq

structure ReplayFile where
  absPath : String
  minBlock : Int
  maxBlock : Int
deriving DecidableEq

/-- An interval `{min, max}` as passed to `fullyCovered`. -/
structure Seg where
  min : Int
  max : Int
deriving DecidableEq

/-! ## Coverage helpers (src/index.ts lines 66-84) -/

/-- Model of `minMaxFrom` (src/index.ts lines 67-71): `{min: 0, max: -1}` on an empty
list, else the minimum and maximum of the headers' heights. -/
def minMaxFrom (blocks : List SlimBlock) : Int × Int :=
  match blocks.map (fun b => b.header.height) with
  | [] => (0, -1)
  | h :: t => (t.foldl min h, t.foldl max h)

/-- Model of `intersects` (src/index.ts lines 72-74): `!(aMax < bMin || bMax < aMin)`. -/
def intersects (aMin aMax bMin bMax : Int) : Bool :=
  !(decide (aMax < bMin) || decide (bMax < aMin))

/-- The JS comparator `(x, y) => x.min - y.min` orders segments ascending by `min`. -/
def segLE (x y : Seg) : Prop := x.min ≤ y.min

instance : DecidableRel segLE := fun x y => inferInstanceAs (Decidable (x.min ≤ y.min))

/-- JS `Array.prototype.sort` is a stable sort; modelled by stable insertion sort. -/
def sortSegs (l : List Seg) : List Seg := l.insertionSort segLE

/-- The cursor walk of `fullyCovered` (src/index.ts lines 78-83). -/
def coveredLoop (aMax : Int) : Int → List Seg → Bool
  | cursor, [] => decide (cursor > aMax)
  | cursor, s :: rest =>
    if s.min > cursor then false
    else if max cursor (s.max + 1) > aMax then true
    else coveredLoop aMax (max cursor (s.max + 1)) rest

/-- Model of `fullyCovered` (src/index.ts lines 75-84). -/
def fullyCovered (aMin aMax : Int) (segs : List Seg) : Bool :=
  coveredLoop aMax aMin
    (sortSegs (segs.filter fun s => decide (s.max ≥ aMin) && decide (s.min ≤ aMax)))

/-- Coverage test following the words of the claim: keep the intervals that
intersect `[aMin, aMax]`, sort them ascending by start, then require that each
interval's start does not exceed the running cursor and that the cursor,
advanced to `max(cursor, end + 1)`, ends up exceeding `aMax`. -/
def specWalk (aMax : Int) : Int → List Seg → Bool
  | cursor, [] => decide (cursor > aMax)
  | cursor, s :: rest =>
    if s.min > cursor then false else specWalk aMax (max cursor (s.max + 1)) rest

def fullyCoveredSpec (aMin aMax : Int) (segs : List Seg) : Bool :=
  specWalk aMax aMin (sortSegs (segs.filter fun s => intersects aMin aMax s.min s.max))

/-! ## Auto-swap engine (src/index.ts lines 184-234)

The engine's effectful inputs are made explicit: `autoOn` and `requireFull`
are the two environment flags, `files` is the manifest listing returned by
`listReplayFiles()`, and `readFn` gives the blocks streamed from a cached file
(all groups concatenated, in file order). -/

/-- The collection loop (src/index.ts lines 204-212): stream every in-range
file in order and keep the blocks whose height falls within `[lo, hi]`. -/
def collectInRange (readFn : ReplayFile → List SlimBlock) (lo hi : Int)
    (inRange : List ReplayFile) : List SlimBlock :=
  ((inRange.map readFn).flatten).filter
    (fun b => decide (lo ≤ b.header.height) && decide (b.header.height ≤ hi))

def heightLE (a b : SlimBlock) : Prop := a.header.height ≤ b.header.height

instance : DecidableRel heightLE :=
  fun a b => inferInstanceAs (Decidable (a.header.height ≤ b.header.height))

instance : IsTotal SlimBlock heightLE := ⟨fun a b => le_total a.header.height b.header.height⟩

instance : IsTrans SlimBlock heightLE := ⟨fun _ _ _ h1 h2 => le_trans h1 h2⟩

/-- Model of `collected.sort((a, b) => a.header.height - b.header.height)`: stable
ascending sort by height. -/
def sortBlocks (l : List SlimBlock) : List SlimBlock := l.insertionSort heightLE

/-- The dedup loop (src/index.ts lines 216-220): drop a block whose height
equals the previously kept height; `last` starts at `-1`. -/
def dedupByHeight : Int → List SlimBlock → List SlimBlock
  | _, [] => []
  | last, b :: rest =>
    if b.header.height = last then dedupByHeight last rest
    else b :: dedupByHeight b.header.height rest

/-- The stitched replacement candidate: collected blocks, sorted and
deduplicated by height. -/
def swapCandidate (readFn : ReplayFile → List SlimBlock) (lo hi : Int)
    (inRange : List ReplayFile) : List SlimBlock :=
  dedupByHeight (-1) (sortBlocks (collectInRange readFn lo hi inRange))

/-- The re-check of src/index.ts lines 222-229: first height equals `lo`, last
height equals `hi`, and the count is at least `hi - lo + 1` (false on an empty
candidate, as `undefined === lo` is false in JS). -/
def stitchOk (lo hi : Int) (cand : List SlimBlock) : Bool :=
  match cand.head?, cand.getLast? with
  | some a, some b =>
      decide (a.header.height = lo) && decide (b.header.height = hi) &&
      decide ((cand.length : Int) ≥ hi - lo + 1)
  | _, _ => false

/-- The strict ascending-height relation: `Pairwise heightLT` says the list is
sorted ascending with no two equal heights. -/
def heightLT (a b : SlimBlock) : Prop := a.header.height < b.header.height

instance : IsTrans SlimBlock heightLT := ⟨fun _ _ _ h1 h2 => lt_trans h1 h2⟩

/-- The `inRange` selection (src/index.ts line 192): files whose interval
intersects the live range. -/
def inRangeFiles (lo hi : Int) (files : List ReplayFile) : List ReplayFile :=
  files.filter fun f => intersects lo hi f.minBlock f.maxBlock

/-- Model of `autoSwapBlocks` (src/index.ts lines 184-234). -/
def autoSwapBlocks (autoOn requireFull : Bool) (readFn : ReplayFile → List SlimBlock)
    (files : List ReplayFile) (liveBlocks : List SlimBlock) : List SlimBlock :=
  if !autoOn || liveBlocks.isEmpty then liveBlocks
  else
    let lo := (minMaxFrom liveBlocks).1
    let hi := (minMaxFrom liveBlocks).2
    if files.isEmpty then liveBlocks
    else
      let inRange := inRangeFiles lo hi files
      if inRange.isEmpty then liveBlocks
      else if requireFull &&
          !(fullyCovered lo hi (inRange.map fun f => ⟨f.minBlock, f.maxBlock⟩)) then liveBlocks
      else
        let dedup := swapCandidate readFn lo hi inRange
        if requireFull && !(stitchOk lo hi dedup) then liveBlocks
        else dedup

/-! ## Manifest & lock subsystem (src/fileio.ts lines 151-294)

The file system visible to `withManifest` is made explicit: the manifest
file's contents, the temporary file used by the write-then-rename step, and
whether the lock marker `manifest.json.lock` is present. -/

structure ManifestEntry where
  path : String
  minBlock : Int
  maxBlock : Int
deriving DecidableEq

structure Manifest where
  files : List ManifestEntry
deriving DecidableEq

/-- Contents of the manifest file on disk: missing, unparseable JSON, or a
well-formed manifest. -/
inductive FileContent where
  | absent : FileContent
  | corrupt : FileContent
  | wellFormed (m : Manifest) : FileContent
deriving DecidableEq

structure FS where
  manifestFile : FileContent
  tmpFile : Option Manifest
  lockHeld : Bool
deriving DecidableEq

/-- Errors escaping `withManifest`: a lock-acquisition timeout, or an error
raised by the caller's `mutateFn` (propagated, not swallowed). -/
inductive WMError (ε : Type) where
  | lockTimeout : WMError ε
  | userError (e : ε) : WMError ε
deriving DecidableEq

inductive WMResult where
  | listing (files : List ReplayFile) : WMResult
  | updated (m : Manifest) : WMResult
deriving DecidableEq

/-- Parse of the manifest file by `JSON.parse`; the `catch` turns a missing or corrupt
file into the empty manifest `{files: []}` (src/fileio.ts lines 271-276). -/
def parseManifest : FileContent → Manifest
  | .wellFormed m => m
  | _ => ⟨[]⟩

/-- Node `path.join` for the shapes used by this repository. -/
def pathJoin (a b : String) : String := a ++ "/" ++ b

/-- Node `path.dirname`: the path up to the last separator, `"."` when there
is none. -/
def dirname (p : String) : String :=
  let parts := p.splitOn "/"
  if parts.length ≤ 1 then "." else String.intercalate "/" parts.dropLast

/-- The read branch of `withManifest` (src/fileio.ts lines 278-284): entries
resolved against the manifest's directory. -/
def resolveEntries (manifestPath : String) (m : Manifest) : List ReplayFile :=
  m.files.map fun f => ⟨pathJoin (dirname manifestPath) f.path, f.minBlock, f.maxBlock⟩

/-- Model of `withManifest` (src/fileio.ts lines 267-294). Lock acquisition is modelled
one-shot: if the marker is present the acquisition loop ends in the timeout
error (the backoff/staleness schedule is real-time behavior outside the
model); otherwise the marker is created. The `try/finally` discipline —
release the lock on every exit path after acquisition — is modelled by the
`lockHeld := false` update on each branch. `mutateFn` may raise (`.error`). -/
def withManifestM {ε : Type} (manifestPath : String)
    (mutate? : Option (Manifest → Except ε Manifest)) (fs : FS) :
    Except (WMError ε) WMResult × FS :=
  if fs.lockHeld then (.error .lockTimeout, fs)
  else
    let fs1 : FS := { fs with lockHeld := true }
    let m := parseManifest fs1.manifestFile
    match mutate? with
    | none => (.ok (.listing (resolveEntries manifestPath m)), { fs1 with lockHeld := false })
    | some f =>
      match f m with
      | .error e => (.error (.userError e), { fs1 with lockHeld := false })
      | .ok next =>
        let fs2 : FS := { fs1 with tmpFile := some next }
        let fs3 : FS := { fs2 with manifestFile := .wellFormed next, tmpFile := none }
        (.ok (.updated next), { fs3 with lockHeld := false })

/-- Model of `listReplayFiles` (src/index.ts lines 168-172): `withManifest` on
`<base>/manifest.json` without a mutator. -/
def listReplayFilesM (base : String) (fs : FS) : Except (WMError Unit) WMResult × FS :=
  withManifestM (pathJoin base "manifest.json") none fs

/-! ## recordBatch (src/index.ts lines 101-166) -/

inductive CacheMode where
  | record | replay | off
deriving DecidableEq

structure RawLog where
  address : String
  data : String
  topics : List String
  transactionHash : String
  blockNumber : Option Int
  logIndex : Option Int
  transactionIndex : Option Int
  blockHash : Option String
deriving DecidableEq

structure RawHeader where
  height : Option Int
  number : Option Int
  hash : Option String
  timestamp : Option Int
deriving DecidableEq

structure RawBlock where
  header : Option RawHeader
  number : Option Int
  logs : List RawLog
  transactions : List SlimTx
deriving DecidableEq

/-- Log normalization (src/index.ts lines 112-121). -/
def normalizeLog (b : RawBlock) (l : RawLog) : SlimLog :=
  { address := l.address, data := l.data, topics := l.topics,
    transactionHash := l.transactionHash,
    blockNumber := l.blockNumber.getD ((b.header.bind (·.height)).getD 0),
    logIndex := l.logIndex.getD 0,
    transactionIndex := l.transactionIndex.getD 0,
    blockHash := l.blockHash }

/-- Batch normalization (src/index.ts lines 111-142): legacy height aliases
`header.height ?? header.number ?? number ?? 0`, header hash backfilled from
the first log's block hash. -/
def normalizeBlock (b : RawBlock) : SlimBlock :=
  let slimLogs := b.logs.map (normalizeLog b)
  { header :=
      { height := (b.header.bind (·.height)).getD
          ((b.header.bind (·.number)).getD (b.number.getD 0)),
        hash := ((b.header.bind (·.hash)).orElse fun _ => slimLogs.head?.bind (·.blockHash)),
        timestamp := (b.header.bind (·.timestamp)).getD 0 },
    logs := slimLogs,
    transactions := b.transactions }

/-- Extraction `minBlock = slim[0]?.header.height ?? 0` (src/index.ts line 144). -/
def recordMinBlock (slim : List SlimBlock) : Int :=
  (slim.head?.map (·.header.height)).getD 0

/-- Extraction `maxBlock = slim[slim.length - 1]?.header.height ?? minBlock` (line 145). -/
def recordMaxBlock (slim : List SlimBlock) : Int :=
  (slim.getLast?.map (·.header.height)).getD (recordMinBlock slim)

/-- The written file's name, `` `${minBlock}-${maxBlock}.ndjson.gz` `` (line 150). -/
def recordFileName (minBlock maxBlock : Int) : String :=
  toString minBlock ++ "-" ++ toString maxBlock ++ ".ndjson.gz"

def entryLE (a b : ManifestEntry) : Prop := a.minBlock ≤ b.minBlock

instance : DecidableRel entryLE := fun a b => inferInstanceAs (Decidable (a.minBlock ≤ b.minBlock))

instance : IsTotal ManifestEntry entryLE := ⟨fun a b => le_total a.minBlock b.minBlock⟩

instance : IsTrans ManifestEntry entryLE := ⟨fun _ _ _ h1 h2 => le_trans h1 h2⟩

/-- Model of `man.files.sort((a, b) => a.minBlock - b.minBlock)`: stable ascending sort. -/
def sortEntries (l : List ManifestEntry) : List ManifestEntry := l.insertionSort entryLE

/-- The manifest entry appended for a recorded batch (src/index.ts line 159):
relative path `<day>/<minBlock>-<maxBlock>.ndjson.gz` with the batch's range. -/
def recordEntry (day : String) (slim : List SlimBlock) : ManifestEntry :=
  ⟨pathJoin day (recordFileName (recordMinBlock slim) (recordMaxBlock slim)),
   recordMinBlock slim, recordMaxBlock slim⟩

/-- The manifest transition of one `recordBatch` call (src/index.ts lines
101-162): skip outside record mode or on an empty batch, else normalize,
append the new entry and re-sort by `minBlock`. -/
def recordBatch (mode : CacheMode) (day : String) (rawBlocks : List RawBlock)
    (man : Manifest) : Manifest :=
  if mode = .off ∨ mode = .replay then man
  else if rawBlocks.isEmpty then man
  else
    let slim := rawBlocks.map normalizeBlock
    ⟨sortEntries (man.files ++ [recordEntry day slim])⟩

def runRecordBatches (mode : CacheMode) (day : String) (batches : List (List RawBlock))
    (man : Manifest) : Manifest :=
  batches.foldl (fun m b => recordBatch mode day b m) man

/-! ## Batch codec (src/fileio.ts lines 105-149)

File contents are modelled as character lists (gzip round-trips losslessly,
so the model works on the uncompressed stream). Row serialization
(`JSON.stringify` / `JSON.parse` of one record per line) is a Node builtin,
abstracted as an encode/decode pair. -/

/-- Split a character stream at every `'\n'`; the last component is the
leftover after the final newline. -/
def splitNl : List Char → List (List Char)
  | [] => [[]]
  | c :: cs =>
    if c = '\n' then [] :: splitNl cs
    else
      match splitNl cs with
      | [] => [[c]]
      | g :: gs => (c :: g) :: gs

/-- Content written by `gzipWriteNDJSON` (src/fileio.ts lines 105-123): the header line,
then one line per row, each terminated by `'\n'`. -/
def writeNDJSON {T : Type} (headerLine : List Char) (enc : T → List Char)
    (rows : List T) : List Char :=
  ((headerLine :: rows.map enc).map (fun l => l ++ ['\n'])).flatten

/-- Model of `gunzipReadNDJSON` (src/fileio.ts lines 125-149): only lines completed by
a newline are parsed; empty lines are skipped before the header flag is
consumed; with `skipHeader` the first non-empty line is discarded; all parsed
rows are yielded as a single group, or no group at all when there are none. -/
def readNDJSON {T : Type} (dec : List Char → T) (skipHeader : Bool)
    (content : List Char) : List (List T) :=
  let complete := (splitNl content).dropLast
  let nonempty := complete.filter (fun l => !l.isEmpty)
  let body := if skipHeader then nonempty.drop 1 else nonempty
  let rows := body.map dec
  if rows.isEmpty then [] else [rows]

/-! ## Size-based retention (src/clean.ts lines 112-168) -/

/-- A date partition directory with its recursive size in bytes. -/
structure Part where
  date : Int
  size : Nat
deriving DecidableEq

def partLE (a b : Part) : Prop := a.date ≤ b.date

instance : DecidableRel partLE := fun a b => inferInstanceAs (Decidable (a.date ≤ b.date))

instance : IsTotal Part partLE := ⟨fun a b => le_total a.date b.date⟩

instance : IsTrans Part partLE := ⟨fun _ _ _ h1 h2 => le_trans h1 h2⟩

/-- Model of `collectDateFolders`: it sorts the partitions by date ascending (oldest
first, src/clean.ts line 149). -/
def sortParts (l : List Part) : List Part := l.insertionSort partLE

/-- Model of `totalSize` (src/clean.ts lines 112-127): total bytes across the scope. -/
def totalSize (parts : List Part) : Nat := (parts.map (·.size)).sum

/-- Total size as an integer, for the running-total arithmetic. -/
def sumSizes (parts : List Part) : Int := (parts.map fun p => (p.size : Int)).sum

/-- The deletion loop of `pruneBySize` (src/clean.ts lines 159-166): delete
the next folder, subtract its size, stop when the running total is at or
below the budget. Returns the deleted partitions in deletion order. -/
def pruneLoop (maxBytes : Int) : Int → List Part → List Part
  | _, [] => []
  | current, p :: rest =>
    p :: (if current - (p.size : Int) ≤ maxBytes then [] else pruneLoop maxBytes (current - (p.size : Int)) rest)

/-- Model of `pruneBySize` (src/clean.ts lines 153-168): nothing is deleted when the
total is within budget, else delete oldest-first until at or below budget. -/
def pruneBySize (maxBytes : Int) (parts : List Part) : List Part :=
  if (totalSize parts : Int) ≤ maxBytes then []
  else pruneLoop maxBytes (totalSize parts) (sortParts parts)

/-! ## Concrete instances used by witnesses -/

def liveA : SlimBlock := ⟨⟨10, none, 0⟩, [], []⟩

def liveB : SlimBlock := ⟨⟨11, none, 0⟩, [], []⟩

def cachedA : SlimBlock := ⟨⟨10, none, 99⟩, [], []⟩

def cachedB : SlimBlock := ⟨⟨11, none, 99⟩, [], []⟩

def fileAB : ReplayFile := ⟨"f", 10, 11⟩

def readAB : ReplayFile → List SlimBlock := fun _ => [cachedA, cachedB]

/-- A raw batch whose header carries only a height. -/
def rawAt (h : Int) : RawBlock := ⟨some ⟨some h, none, none, some 0⟩, none, [], []⟩

/-- A trivial one-character row encoding used to witness the codec theorem. -/
def encU : Unit → List Char := fun _ => ['x']

def decU : List Char → Unit := fun _ => ()

/-! # Theorems -/

/-- Cross-validation of the SHA-256 embedding against the FIPS 180-4 test
vector for the message `"abc"`. -/
theorem sha256_abc_vector : sha256Hex (strBytes "abc")
    = "ba7816bf8f01cfea414140de5dae2223b00361a396177a9cb410ff61f20015ad" := by decide

/-- C1: the claim requires `stableHash16({project, chain, identity})` to agree
on semantically equal identities that differ only in object key construction
order. The code hashes `JSON.stringify` output without canonicalizing key
order, so the two construction orders of the map `{a: 1, b: 2}` produce two
different fingerprints, and the two recorders resolve to different namespace
directories. -/
theorem configHash_not_key_order_stable :
    jsonEquivalent idAB idBA = true ∧
    jsonStringify (identityWrap "p" "c" idAB)
      = "\x7b\"project\":\"p\",\"chain\":\"c\",\"identity\":\x7b\"a\":1,\"b\":2\x7d\x7d" ∧
    jsonStringify (identityWrap "p" "c" idBA)
      = "\x7b\"project\":\"p\",\"chain\":\"c\",\"identity\":\x7b\"b\":2,\"a\":1\x7d\x7d" ∧
    configHashOf "p" "c" idAB = "03b42ce9acd51f50" ∧
    configHashOf "p" "c" idBA = "c37085909679da75" ∧
    configHashOf "p" "c" idAB ≠ configHashOf "p" "c" idBA := by
  refine ⟨by decide, by decide, by decide, by decide, by decide, by decide⟩

/-! ### C2: `fullyCovered` matches the claim's description -/

theorem intersects_iff (aMin aMax bMin bMax : Int) :
    intersects aMin aMax bMin bMax = (decide (bMax ≥ aMin) && decide (bMin ≤ aMax)) := by
  by_cases h1 : aMax < bMin <;> by_cases h2 : bMax < aMin <;>
    · simp [intersects, h1, h2]
      try omega

theorem specWalk_of_gt (aMax : Int) (l : List Seg) :
    ∀ cursor : Int, aMax < cursor → (∀ s ∈ l, s.min ≤ aMax) →
      specWalk aMax cursor l = true := by
  induction l with
  | nil => intro cursor h _; simp [specWalk]; omega
  | cons s rest ih =>
    intro cursor h hall
    have hs : s.min ≤ aMax := hall s (by simp)
    rw [specWalk, if_neg (by omega)]
    refine ih _ ?_ (fun t ht => hall t (by simp [ht]))
    have := le_max_left cursor (s.max + 1)
    omega

theorem coveredLoop_eq_specWalk (aMax : Int) (l : List Seg) :
    ∀ cursor : Int, (∀ s ∈ l, s.min ≤ aMax) →
      coveredLoop aMax cursor l = specWalk aMax cursor l := by
  induction l with
  | nil => intro cursor _; rfl
  | cons s rest ih =>
    intro cursor hall
    rw [coveredLoop, specWalk]
    by_cases h1 : s.min > cursor
    · rw [if_pos h1, if_pos h1]
    · rw [if_neg h1, if_neg h1]
      by_cases h2 : max cursor (s.max + 1) > aMax
      · rw [if_pos h2]
        exact (specWalk_of_gt aMax rest _ h2 (fun t ht => hall t (by simp [ht]))).symm
      · rw [if_neg h2]
        exact ih _ (fun t ht => hall t (by simp [ht]))

/-- C2: `fullyCovered(min, max, segs)` returns true exactly when the intervals
of `segs` intersecting `[min, max]`, sorted ascending by start, contiguously
cover `[min, max]` under the cursor walk; in particular `[10,15], [16,20]`
fully cover `[10,20]` and `[10,14], [16,20]` do not. -/
theorem fullyCovered_matches_spec :
    (∀ (aMin aMax : Int) (segs : List Seg),
      fullyCovered aMin aMax segs = fullyCoveredSpec aMin aMax segs) ∧
    fullyCovered 10 20 [⟨10, 15⟩, ⟨16, 20⟩] = true ∧
    fullyCovered 10 20 [⟨10, 14⟩, ⟨16, 20⟩] = false := by
  refine ⟨fun aMin aMax segs => ?_, by decide, by decide⟩
  unfold fullyCovered fullyCoveredSpec
  have hfilter : (segs.filter fun s => decide (s.max ≥ aMin) && decide (s.min ≤ aMax))
      = segs.filter fun s => intersects aMin aMax s.min s.max := by
    refine List.filter_congr fun s _ => ?_
    exact (intersects_iff aMin aMax s.min s.max).symm
  rw [← hfilter]
  refine coveredLoop_eq_specWalk aMax _ aMin fun s hs => ?_
  have hmem : s ∈ segs.filter fun s => decide (s.max ≥ aMin) && decide (s.min ≤ aMax) := by
    simpa [sortSegs] using hs
  have := (List.mem_filter.mp hmem).2
  simp at this
  exact this.2

/-! ### C3 / C4: `autoSwapBlocks` -/

theorem dedup_head (l : Int) (xs : List SlimBlock) :
    ∀ y, (dedupByHeight l xs).head? = some y → y ∈ xs ∧ y.header.height ≠ l := by
  induction xs generalizing l with
  | nil => intro y hy; simp [dedupByHeight] at hy
  | cons b rest ih =>
    intro y hy
    rw [dedupByHeight] at hy
    by_cases hb : b.header.height = l
    · rw [if_pos hb] at hy
      obtain ⟨hmem, hne⟩ := ih l y hy
      exact ⟨List.mem_cons_of_mem _ hmem, hne⟩
    · rw [if_neg hb] at hy
      simp at hy
      subst hy
      exact ⟨List.mem_cons_self .., hb⟩

theorem dedup_chain (xs : List SlimBlock) (hs : List.Pairwise heightLE xs) :
    ∀ l : Int, List.Chain' heightLT (dedupByHeight l xs) := by
  induction xs with
  | nil => intro l; simp [dedupByHeight]
  | cons b rest ih =>
    intro l
    obtain ⟨hb, hrest⟩ := List.pairwise_cons.mp hs
    rw [dedupByHeight]
    by_cases hbl : b.header.height = l
    · rw [if_pos hbl]; exact ih hrest l
    · rw [if_neg hbl]
      refine List.chain'_cons'.mpr ⟨?_, ih hrest b.header.height⟩
      intro y hy
      obtain ⟨hmem, hne⟩ := dedup_head b.header.height rest y hy
      exact lt_of_le_of_ne (hb y hmem) (Ne.symm hne)

theorem swapCandidate_pairwise (readFn : ReplayFile → List SlimBlock) (lo hi : Int)
    (inRange : List ReplayFile) :
    List.Pairwise heightLT (swapCandidate readFn lo hi inRange) := by
  refine List.chain'_iff_pairwise.mp ?_
  refine dedup_chain _ ?_ (-1)
  exact List.sorted_insertionSort heightLE (collectInRange readFn lo hi inRange)

/-- The branch structure of `autoSwapBlocks`: either it falls back to the live
blocks, or (when full coverage is required) both coverage checks passed and
the result is the stitched candidate. -/
theorem autoSwap_cases (autoOn requireFull : Bool) (readFn : ReplayFile → List SlimBlock)
    (files : List ReplayFile) (liveBlocks : List SlimBlock) :
    autoSwapBlocks autoOn requireFull readFn files liveBlocks = liveBlocks ∨
    ((requireFull = true →
        fullyCovered (minMaxFrom liveBlocks).1 (minMaxFrom liveBlocks).2
          ((inRangeFiles (minMaxFrom liveBlocks).1 (minMaxFrom liveBlocks).2 files).map
            fun f => ⟨f.minBlock, f.maxBlock⟩) = true) ∧
     (requireFull = true →
        stitchOk (minMaxFrom liveBlocks).1 (minMaxFrom liveBlocks).2
          (swapCandidate readFn (minMaxFrom liveBlocks).1 (minMaxFrom liveBlocks).2
            (inRangeFiles (minMaxFrom liveBlocks).1 (minMaxFrom liveBlocks).2 files)) = true) ∧
     autoSwapBlocks autoOn requireFull readFn files liveBlocks =
        swapCandidate readFn (minMaxFrom liveBlocks).1 (minMaxFrom liveBlocks).2
          (inRangeFiles (minMaxFrom liveBlocks).1 (minMaxFrom liveBlocks).2 files)) := by
  simp only [autoSwapBlocks]
  split
  · exact Or.inl rfl
  · split
    · exact Or.inl rfl
    · split
      · exact Or.inl rfl
      · split
        · exact Or.inl rfl
        · next h4 =>
          split
          · exact Or.inl rfl
          · next h5 =>
            refine Or.inr ⟨fun hrf => ?_, fun hrf => ?_, rfl⟩
            · subst hrf; simpa using h4
            · subst hrf; simpa using h5

/-- C3: for non-empty `liveBlocks`, `autoSwapBlocks` returns the original
sequence unchanged whenever auto-use is disabled, or full coverage is required
and the selected files' intervals do not fully cover the live range, or full
coverage is required and the stitched candidate fails the re-check; it never
returns a partial replacement when full coverage was requested. -/
theorem autoSwap_fallback_preserves_live (autoOn requireFull : Bool)
    (readFn : ReplayFile → List SlimBlock) (files : List ReplayFile)
    (liveBlocks : List SlimBlock) (_hne : liveBlocks ≠ []) :
    (autoOn = false → autoSwapBlocks autoOn requireFull readFn files liveBlocks = liveBlocks) ∧
    (requireFull = true →
      fullyCovered (minMaxFrom liveBlocks).1 (minMaxFrom liveBlocks).2
        ((inRangeFiles (minMaxFrom liveBlocks).1 (minMaxFrom liveBlocks).2 files).map
          fun f => ⟨f.minBlock, f.maxBlock⟩) = false →
      autoSwapBlocks autoOn requireFull readFn files liveBlocks = liveBlocks) ∧
    (requireFull = true →
      stitchOk (minMaxFrom liveBlocks).1 (minMaxFrom liveBlocks).2
        (swapCandidate readFn (minMaxFrom liveBlocks).1 (minMaxFrom liveBlocks).2
          (inRangeFiles (minMaxFrom liveBlocks).1 (minMaxFrom liveBlocks).2 files)) = false →
      autoSwapBlocks autoOn requireFull readFn files liveBlocks = liveBlocks) := by
  refine ⟨fun hoff => ?_, fun hrf hcov => ?_, fun hrf hok => ?_⟩
  · subst hoff; simp [autoSwapBlocks]
  · rcases autoSwap_cases autoOn requireFull readFn files liveBlocks with h | ⟨h1, _, _⟩
    · exact h
    · rw [h1 hrf] at hcov; cases hcov
  · rcases autoSwap_cases autoOn requireFull readFn files liveBlocks with h | ⟨_, h2, _⟩
    · exact h
    · rw [h2 hrf] at hok; cases hok

/-- C3 witness: with auto-use disabled the live batch passes through. -/
theorem autoSwap_fallback_witness :
    autoSwapBlocks false true readAB [fileAB] [liveA, liveB] = [liveA, liveB] :=
  (autoSwap_fallback_preserves_live false true readAB [fileAB] [liveA, liveB]
    (by decide)).1 rfl

/-- C4: when auto-use and full coverage are enabled and the swap is performed
(the result is not the live fallback), the returned sequence is strictly
ascending in height (hence has no duplicate heights) and its first and last
heights equal the live range's min and max. -/
theorem autoSwap_swap_sorted (autoOn requireFull : Bool)
    (readFn : ReplayFile → List SlimBlock) (files : List ReplayFile)
    (liveBlocks : List SlimBlock) (_hne : liveBlocks ≠ []) (_hauto : autoOn = true)
    (hfull : requireFull = true)
    (hswap : autoSwapBlocks autoOn requireFull readFn files liveBlocks ≠ liveBlocks) :
    List.Pairwise heightLT (autoSwapBlocks autoOn requireFull readFn files liveBlocks) ∧
    ((autoSwapBlocks autoOn requireFull readFn files liveBlocks).head?.map
      fun b => b.header.height) = some (minMaxFrom liveBlocks).1 ∧
    ((autoSwapBlocks autoOn requireFull readFn files liveBlocks).getLast?.map
      fun b => b.header.height) = some (minMaxFrom liveBlocks).2 := by
  rcases autoSwap_cases autoOn requireFull readFn files liveBlocks with h | ⟨_, h2, h3⟩
  · exact absurd h hswap
  · have hok := h2 hfull
    rw [h3]
    set cand := swapCandidate readFn (minMaxFrom liveBlocks).1 (minMaxFrom liveBlocks).2
      (inRangeFiles (minMaxFrom liveBlocks).1 (minMaxFrom liveBlocks).2 files) with hcand
    refine ⟨swapCandidate_pairwise _ _ _ _, ?_, ?_⟩
    · cases hh : cand.head? with
      | none => rw [stitchOk, hh] at hok; cases hok
      | some a =>
        cases hl : cand.getLast? with
        | none => rw [stitchOk, hh, hl] at hok; cases hok
        | some b =>
          rw [stitchOk, hh, hl] at hok
          simp at hok
          simp [hh, hok.1]
    · cases hh : cand.head? with
      | none => rw [stitchOk, hh] at hok; cases hok
      | some a =>
        cases hl : cand.getLast? with
        | none => rw [stitchOk, hh, hl] at hok; cases hok
        | some b =>
          rw [stitchOk, hh, hl] at hok
          simp at hok
          simp [hl, hok.1.2]

/-- C4 witness: a concrete performed swap returns the cached pair, strictly
sorted, spanning exactly the live range 10-11. -/
theorem autoSwap_swap_sorted_witness :
    List.Pairwise heightLT (autoSwapBlocks true true readAB [fileAB] [liveA, liveB]) ∧
    ((autoSwapBlocks true true readAB [fileAB] [liveA, liveB]).head?.map
      fun b => b.header.height) = some (minMaxFrom [liveA, liveB]).1 ∧
    ((autoSwapBlocks true true readAB [fileAB] [liveA, liveB]).getLast?.map
      fun b => b.header.height) = some (minMaxFrom [liveA, liveB]).2 :=
  autoSwap_swap_sorted true true readAB [fileAB] [liveA, liveB]
    (by decide) rfl rfl (by decide)

/-! ### C5 / C8: `withManifest` -/

/-- C5: with the lock free, `withManifest` with a mutator releases the lock on
every exit path: on normal return the lock is released after the new manifest
is renamed into place, and when `mutateFn` raises, the lock is still released,
the error is propagated unchanged, and the manifest file is not rewritten. -/
theorem withManifest_scoped_lock {ε : Type} (mp : String)
    (f : Manifest → Except ε Manifest) (fs : FS) (hfree : fs.lockHeld = false) :
    ((withManifestM mp (some f) fs).2.lockHeld = false) ∧
    (∀ e, f (parseManifest fs.manifestFile) = .error e →
      (withManifestM mp (some f) fs).1 = .error (.userError e) ∧
      (withManifestM mp (some f) fs).2.manifestFile = fs.manifestFile) ∧
    (∀ next, f (parseManifest fs.manifestFile) = .ok next →
      (withManifestM mp (some f) fs).1 = .ok (.updated next) ∧
      (withManifestM mp (some f) fs).2.manifestFile = .wellFormed next) := by
  refine ⟨?_, fun e he => ?_, fun next hn => ?_⟩
  · cases hf : f (parseManifest fs.manifestFile) <;> simp [withManifestM, hfree, hf]
  · constructor <;> simp [withManifestM, hfree, he]
  · constructor <;> simp [withManifestM, hfree, hn]

def fsFree : FS := ⟨.absent, none, false⟩

/-- C5 witness: a mutator that raises propagates its error, leaves the
manifest untouched, and the lock ends up released. -/
theorem withManifest_scoped_lock_witness :
    ((withManifestM "m" (some fun _ => (Except.error () : Except Unit Manifest)) fsFree).2.lockHeld
      = false) ∧
    (withManifestM "m" (some fun _ => (Except.error () : Except Unit Manifest)) fsFree).1
      = .error (.userError ()) ∧
    (withManifestM "m" (some fun _ => (Except.error () : Except Unit Manifest)) fsFree).2.manifestFile
      = fsFree.manifestFile := by
  have h := withManifest_scoped_lock "m"
    (fun _ => (Except.error () : Except Unit Manifest)) fsFree rfl
  exact ⟨h.1, (h.2.1 () rfl).1, (h.2.1 () rfl).2⟩

/-- C8: `withManifest` without a mutator treats a missing or corrupt manifest
as empty (returning the empty listing, never a not-found error), and on a
well-formed manifest returns one entry per file with `absPath` the manifest's
directory joined with the entry's relative path, preserving `minBlock` and
`maxBlock`; `listReplayFiles` therefore returns the empty list on a missing
or corrupt manifest. -/
theorem withManifest_read_tolerant (mp : String) (fs : FS) (hfree : fs.lockHeld = false) :
    ((fs.manifestFile = .absent ∨ fs.manifestFile = .corrupt) →
      (withManifestM (ε := Unit) mp none fs).1 = .ok (.listing [])) ∧
    (∀ m, fs.manifestFile = .wellFormed m →
      (withManifestM (ε := Unit) mp none fs).1 = .ok (.listing (m.files.map fun f =>
        ⟨pathJoin (dirname mp) f.path, f.minBlock, f.maxBlock⟩))) ∧
    (∀ base, (fs.manifestFile = .absent ∨ fs.manifestFile = .corrupt) →
      (listReplayFilesM base fs).1 = .ok (.listing [])) := by
  refine ⟨fun hmf => ?_, fun m hm => ?_, fun base hmf => ?_⟩
  · rcases hmf with h | h <;> simp [withManifestM, hfree, h, parseManifest, resolveEntries]
  · simp [withManifestM, hfree, hm, parseManifest, resolveEntries]
  · rcases hmf with h | h <;>
      simp [listReplayFilesM, withManifestM, hfree, h, parseManifest, resolveEntries]

/-- C8 witness: on a missing manifest both the raw read and
`listReplayFiles` yield the empty listing. -/
theorem withManifest_read_tolerant_witness :
    (withManifestM (ε := Unit) "d/manifest.json" none fsFree).1 = .ok (.listing []) ∧
    (listReplayFilesM "d" fsFree).1 = .ok (.listing []) := by
  have h := withManifest_read_tolerant "d/manifest.json" fsFree rfl
  exact ⟨h.1 (Or.inl rfl), h.2.2 "d" (Or.inl rfl)⟩

/-! ### C6 / C10: `recordBatch` -/

theorem recordBatch_perm (day : String) (b : List RawBlock) (m : Manifest) (hb : b ≠ []) :
    (recordBatch .record day b m).files.Perm
      (m.files ++ [recordEntry day (b.map normalizeBlock)]) := by
  rw [recordBatch, if_neg (by simp), if_neg (by simp [hb])]
  exact List.perm_insertionSort entryLE _

theorem recordBatch_sorted (mode : CacheMode) (day : String) (b : List RawBlock)
    (m : Manifest) (hm : List.Pairwise entryLE m.files) :
    List.Pairwise entryLE (recordBatch mode day b m).files := by
  rw [recordBatch]
  split
  · exact hm
  · split
    · exact hm
    · exact List.sorted_insertionSort entryLE _

theorem runRecord_invariant (day : String) (batches : List (List RawBlock)) :
    ∀ man : Manifest, (∀ b ∈ batches, b ≠ []) → List.Pairwise entryLE man.files →
      (runRecordBatches .record day batches man).files.length
        = man.files.length + batches.length ∧
      List.Pairwise entryLE (runRecordBatches .record day batches man).files := by
  induction batches with
  | nil => intro man _ hsort; exact ⟨by simp [runRecordBatches], by simpa [runRecordBatches]⟩
  | cons b bs ih =>
    intro man hne hsort
    have hb : b ≠ [] := hne b (by simp)
    have hstep := recordBatch_perm day b man hb
    have hlen : (recordBatch .record day b man).files.length = man.files.length + 1 := by
      simpa using hstep.length_eq
    have hsort' := recordBatch_sorted .record day b man hsort
    have hrun : runRecordBatches .record day (b :: bs) man
        = runRecordBatches .record day bs (recordBatch .record day b man) := by
      simp [runRecordBatches]
    obtain ⟨h1, h2⟩ := ih (recordBatch .record day b man)
      (fun x hx => hne x (by simp [hx])) hsort'
    rw [hrun]
    refine ⟨?_, h2⟩
    rw [h1, hlen]
    simp [Nat.add_assoc, Nat.add_comm 1]

/-- C6: after N sequential `recordBatch` calls in record mode with
pairwise-disjoint, non-empty batch sets, starting from the empty manifest,
the manifest has exactly N entries sorted ascending by `minBlock`; and each
write only appends one entry and re-sorts (the new file list is a permutation
of the old list plus the new entry, so no entry is ever removed). -/
theorem manifest_monotone (day : String) (batches : List (List RawBlock))
    (hne : ∀ b ∈ batches, b ≠ [])
    (_hdisj : batches.Pairwise fun b1 b2 => ∀ x ∈ b1, ∀ y ∈ b2, x ≠ y) :
    (runRecordBatches .record day batches ⟨[]⟩).files.length = batches.length ∧
    List.Pairwise entryLE (runRecordBatches .record day batches ⟨[]⟩).files ∧
    (∀ (b : List RawBlock) (m : Manifest), b ≠ [] →
      (recordBatch .record day b m).files.Perm
        (m.files ++ [recordEntry day (b.map normalizeBlock)])) := by
  obtain ⟨h1, h2⟩ := runRecord_invariant day batches ⟨[]⟩ hne (by simp)
  exact ⟨by simpa using h1, h2, fun b m hb => recordBatch_perm day b m hb⟩

/-- C6 witness: two disjoint one-block batches leave a 2-entry sorted
manifest. -/
theorem manifest_monotone_witness :
    (runRecordBatches .record "2024-01-01" [[rawAt 10], [rawAt 20]] ⟨[]⟩).files.length = 2 ∧
    List.Pairwise entryLE
      (runRecordBatches .record "2024-01-01" [[rawAt 10], [rawAt 20]] ⟨[]⟩).files ∧
    (∀ (b : List RawBlock) (m : Manifest), b ≠ [] →
      (recordBatch .record "2024-01-01" b m).files.Perm
        (m.files ++ [recordEntry "2024-01-01" (b.map normalizeBlock)])) :=
  manifest_monotone "2024-01-01" [[rawAt 10], [rawAt 20]] (by decide) (by decide)

/-- C10: `recordBatch` takes `minBlock` from the first normalized batch and
`maxBlock` from the last, with no sorting or ascending-order validation; for
the descending input `[rawAt 20, rawAt 10]` the written file name and the
appended manifest entry carry `minBlock = 20 > 10 = maxBlock`. -/
theorem recordBatch_first_last :
    (∀ (raw : List RawBlock) (b : RawBlock), raw.head? = some b →
      recordMinBlock (raw.map normalizeBlock) = (normalizeBlock b).header.height) ∧
    (∀ (raw : List RawBlock) (b : RawBlock), raw.getLast? = some b →
      recordMaxBlock (raw.map normalizeBlock) = (normalizeBlock b).header.height) ∧
    (recordBatch .record "2024-01-01" [rawAt 20, rawAt 10] ⟨[]⟩
        = ⟨[⟨"2024-01-01/20-10.ndjson.gz", 20, 10⟩]⟩ ∧
      recordFileName 20 10 = "20-10.ndjson.gz" ∧ (20 : Int) > 10) := by
  refine ⟨fun raw b hb => ?_, fun raw b hb => ?_, by decide⟩
  · simp [recordMinBlock, List.head?_map, hb]
  · simp [recordMaxBlock, List.getLast?_map, hb]

/-- C10 witness: on the concrete descending input the extracted `minBlock`
and `maxBlock` are the first and last heights, 20 and 10. -/
theorem recordBatch_first_last_witness :
    recordMinBlock ([rawAt 20, rawAt 10].map normalizeBlock)
      = (normalizeBlock (rawAt 20)).header.height ∧
    recordMaxBlock ([rawAt 20, rawAt 10].map normalizeBlock)
      = (normalizeBlock (rawAt 10)).header.height :=
  ⟨recordBatch_first_last.1 [rawAt 20, rawAt 10] (rawAt 20) rfl,
   recordBatch_first_last.2.1 [rawAt 20, rawAt 10] (rawAt 10) rfl⟩

/-! ### C7: codec round-trip -/

theorem splitNl_append (l rest : List Char) (h : '\n' ∉ l) :
    splitNl (l ++ '\n' :: rest) = l :: splitNl rest := by
  induction l with
  | nil => simp [splitNl]
  | cons c cs ih =>
    have hc : ¬(c = '\n') := fun hh => h (by simp [hh])
    have hcs : '\n' ∉ cs := fun hh => h (by simp [hh])
    simp only [List.cons_append, splitNl, if_neg hc]
    rw [List.append_eq, ih hcs]

theorem splitNl_lines (ls : List (List Char)) (h : ∀ l ∈ ls, '\n' ∉ l) :
    splitNl ((ls.map fun l => l ++ ['\n']).flatten) = ls ++ [[]] := by
  induction ls with
  | nil => simp [splitNl]
  | cons l ls ih =>
    have hl : '\n' ∉ l := h l (by simp)
    have hls : ∀ x ∈ ls, '\n' ∉ x := fun x hx => h x (by simp [hx])
    calc splitNl (((l :: ls).map fun x => x ++ ['\n']).flatten)
        = splitNl (l ++ '\n' :: (ls.map fun x => x ++ ['\n']).flatten) := by
          simp
      _ = l :: splitNl ((ls.map fun x => x ++ ['\n']).flatten) := splitNl_append _ _ hl
      _ = (l :: ls) ++ [[]] := by rw [ih hls]; rfl

/-- C7: writing a batch set with the codec and reading it back with the
header skipped yields groups whose concatenation equals the original rows,
and for non-empty rows the result is exactly one group (the whole file's rows
as a single yield). Row (de)serialization is the external JSON line codec,
assumed lossless, newline-free, and non-empty per row. -/
theorem codec_roundtrip {T : Type} (headerLine : List Char) (enc : T → List Char)
    (dec : List Char → T) (rows : List T)
    (hdec : ∀ r, dec (enc r) = r)
    (hencNl : ∀ r, '\n' ∉ enc r) (hencNe : ∀ r, enc r ≠ [])
    (hhdrNl : '\n' ∉ headerLine) (hhdrNe : headerLine ≠ []) :
    (readNDJSON dec true (writeNDJSON headerLine enc rows)).flatten = rows ∧
    (rows ≠ [] → (readNDJSON dec true (writeNDJSON headerLine enc rows)).length = 1) := by
  have hnl : ∀ l ∈ headerLine :: rows.map enc, '\n' ∉ l := by
    intro l hl
    rcases List.mem_cons.mp hl with h | h
    · exact h ▸ hhdrNl
    · obtain ⟨r, _, hr⟩ := List.mem_map.mp h
      exact hr ▸ hencNl r
  have hdrop : ((headerLine :: rows.map enc) ++ [[]]).dropLast
      = headerLine :: rows.map enc := List.dropLast_concat
  have hfilter : (headerLine :: rows.map enc).filter (fun l => !l.isEmpty)
      = headerLine :: rows.map enc := by
    refine List.filter_eq_self.mpr fun l hl => ?_
    rcases List.mem_cons.mp hl with h | h
    · simp [h, hhdrNe]
    · obtain ⟨r, _, hr⟩ := List.mem_map.mp h
      simp [← hr, hencNe r]
  have hmap : (rows.map enc).map dec = rows := by
    rw [List.map_map]
    exact List.map_congr_left (fun a _ => hdec a) |>.trans (List.map_id rows)
  have key : readNDJSON dec true (writeNDJSON headerLine enc rows)
      = if rows.isEmpty then [] else [rows] := by
    simp only [readNDJSON, writeNDJSON, if_true]
    rw [splitNl_lines (headerLine :: rows.map enc) hnl, hdrop, hfilter]
    simp only [List.drop_one, List.tail_cons, hmap]
  rw [key]
  rcases rows with _ | ⟨r, rs⟩ <;> simp

/-- C7 witness: a two-row file round-trips as one group equal to the input. -/
theorem codec_roundtrip_witness :
    (readNDJSON decU true (writeNDJSON ['h'] encU [(), ()])).flatten = [(), ()] ∧
    ([(), ()] ≠ ([] : List Unit) →
      (readNDJSON decU true (writeNDJSON ['h'] encU [(), ()])).length = 1) :=
  codec_roundtrip ['h'] encU decU [(), ()] (fun _ => rfl)
    (by intro r; cases r; decide) (by intro r; cases r; decide) (by decide) (by decide)

/-! ### C9: size-based pruning -/

theorem pruneLoop_take (mb : Int) (l : List Part) :
    ∀ cur : Int, pruneLoop mb cur l = l.take (pruneLoop mb cur l).length := by
  induction l with
  | nil => intro cur; rfl
  | cons p rest ih =>
    intro cur
    rw [pruneLoop]
    by_cases h : cur - (p.size : Int) ≤ mb
    · rw [if_pos h]; rfl
    · rw [if_neg h]
      simp only [List.length_cons, List.take_succ_cons]
      exact congrArg (p :: ·) (ih _)

theorem pruneLoop_necessary (mb : Int) (l : List Part) :
    ∀ cur : Int, mb < cur → ∀ i < (pruneLoop mb cur l).length,
      mb < cur - sumSizes ((pruneLoop mb cur l).take i) := by
  induction l with
  | nil => intro cur _ i hi; simp [pruneLoop] at hi
  | cons p rest ih =>
    intro cur h i hi
    rw [pruneLoop] at hi ⊢
    by_cases hstop : cur - (p.size : Int) ≤ mb
    · rw [if_pos hstop] at hi ⊢
      have hi0 : i = 0 := by simpa using Nat.lt_one_iff.mp (by simpa using hi)
      subst hi0
      simpa [sumSizes] using h
    · rw [if_neg hstop] at hi ⊢
      cases i with
      | zero => simpa [sumSizes] using h
      | succ j =>
        have hj : j < (pruneLoop mb (cur - (p.size : Int)) rest).length := by
          simpa using hi
        have h2 := ih (cur - (p.size : Int)) (by omega) j hj
        simp only [List.take_succ_cons, sumSizes, List.map_cons, List.sum_cons]
        simp only [sumSizes] at h2
        omega

theorem pruneLoop_stops (mb : Int) (l : List Part) :
    ∀ cur : Int, (pruneLoop mb cur l).length < l.length →
      cur - sumSizes (pruneLoop mb cur l) ≤ mb := by
  induction l with
  | nil => intro cur h; simp [pruneLoop] at h
  | cons p rest ih =>
    intro cur h
    rw [pruneLoop] at h ⊢
    by_cases hstop : cur - (p.size : Int) ≤ mb
    · rw [if_pos hstop] at h ⊢
      simp only [sumSizes, List.map_cons, List.map_nil, List.sum_cons, List.sum_nil]
      omega
    · rw [if_neg hstop] at h ⊢
      have hlen : (pruneLoop mb (cur - (p.size : Int)) rest).length < rest.length := by
        simpa using h
      have h2 := ih (cur - (p.size : Int)) hlen
      simp only [sumSizes, List.map_cons, List.sum_cons]
      simp only [sumSizes] at h2
      omega

/-- C9: `pruneBySize` deletes nothing when the total is within budget;
otherwise it deletes a prefix of the date-sorted partitions (strictly oldest
first), before every deletion the running total still exceeds the budget
(no unnecessary deletion), and if it stops before exhausting the partitions
the running total has reached the budget (stops as soon as at-or-below). -/
theorem pruneBySize_correct (maxBytes : Int) (parts : List Part) :
    ((totalSize parts : Int) ≤ maxBytes → pruneBySize maxBytes parts = []) ∧
    (pruneBySize maxBytes parts
      = (sortParts parts).take (pruneBySize maxBytes parts).length) ∧
    (∀ i < (pruneBySize maxBytes parts).length,
      maxBytes < (totalSize parts : Int) - sumSizes ((pruneBySize maxBytes parts).take i)) ∧
    ((pruneBySize maxBytes parts).length < parts.length →
      (totalSize parts : Int) - sumSizes (pruneBySize maxBytes parts) ≤ maxBytes) := by
  by_cases h : (totalSize parts : Int) ≤ maxBytes
  · refine ⟨fun _ => by simp [pruneBySize, h], by simp [pruneBySize, h],
      fun i hi => ?_, fun hlen => ?_⟩
    · simp [pruneBySize, h] at hi
    · simp [pruneBySize, h, sumSizes]
  · refine ⟨fun hh => absurd hh h, ?_, fun i hi => ?_, fun hlen => ?_⟩
    · simp only [pruneBySize, if_neg h]
      exact pruneLoop_take maxBytes (sortParts parts) _
    · simp only [pruneBySize, if_neg h] at hi ⊢
      exact pruneLoop_necessary maxBytes (sortParts parts) _ (by omega) i hi
    · simp only [pruneBySize, if_neg h] at hlen ⊢
      refine pruneLoop_stops maxBytes (sortParts parts) _ ?_
      calc (pruneLoop maxBytes (totalSize parts : Int) (sortParts parts)).length
          < parts.length := hlen
        _ = (sortParts parts).length := (List.length_insertionSort _ parts).symm

/-- C9 witness: partitions of sizes 60+60 against budget 100 delete exactly
the oldest partition, reaching 60 ≤ 100; budget 200 deletes nothing. -/
theorem pruneBySize_correct_witness :
    pruneBySize 100 [⟨1, 60⟩, ⟨2, 60⟩]
      = (sortParts [⟨1, 60⟩, ⟨2, 60⟩]).take (pruneBySize 100 [⟨1, 60⟩, ⟨2, 60⟩]).length ∧
    (totalSize [⟨1, 60⟩, ⟨2, 60⟩] : Int) - sumSizes (pruneBySize 100 [⟨1, 60⟩, ⟨2, 60⟩]) ≤ 100 ∧
    pruneBySize 200 [⟨1, 60⟩, ⟨2, 60⟩] = [] :=
  ⟨(pruneBySize_correct 100 [⟨1, 60⟩, ⟨2, 60⟩]).2.1,
   (pruneBySize_correct 100 [⟨1, 60⟩, ⟨2, 60⟩]).2.2.2 (by decide),
   (pruneBySize_correct 200 [⟨1, 60⟩, ⟨2, 60⟩]).1 (by decide)⟩

end SquidCache
